import Mathlib

/-!
Verification of the chinese-reader lexical annotation engine.

This file gives a shallow embedding of the core of the repository —
the CC-CEDICT dictionary parser and index (`dictionary.py`), the numeric-tone
pinyin renderer (`_format_pinyin` / `add_tone`), the recursive pinyin
assembler (`get_pinyin`), the HSK level resolver (`resources/utils.py`),
and the annotation pipeline (`text_processor.py`) — and proves or refutes
the specification claims about them.

Python strings are modelled as `List Char`; Python `None` vs values are
modelled with `Option`; code that can raise an uncaught exception returns
`Except Unit`.
-/

/-- Python strings are modelled as lists of characters. -/
abbrev Str := List Char

/-- Python list indexing `l[i]`: a negative index counts from the end, an
out-of-range index raises (modelled as `none`). -/
def pyIdx {α : Type} (l : List α) (i : Int) : Option α :=
  if 0 ≤ i then l.get? i.toNat
  else if i.natAbs ≤ l.length then l.get? (l.length - i.natAbs)
  else none

/-- ASCII whitespace as matched by Python's `str.strip` / `str.split` and
by `\s` in the regular expressions of `dictionary.py` (the source data is
ASCII-plus-CJK, where these agree with Python's Unicode whitespace). -/
def isPyWs (c : Char) : Bool :=
  c = ' ' || c = '\t' || c = '\n' || c = '\x0d' || c.toNat = 11 || c.toNat = 12

/-- Python `str.strip()`: drop whitespace from both ends. -/
def pyStrip (s : Str) : Str :=
  ((s.dropWhile isPyWs).reverse.dropWhile isPyWs).reverse

/-- Helper for `pySplitWs`: accumulate the current word (reversed) while
scanning. -/
def splitWsAux : Str → Str → List Str
  | [], acc => if acc = [] then [] else [acc.reverse]
  | c :: rest, acc =>
    if isPyWs c then
      if acc = [] then splitWsAux rest [] else acc.reverse :: splitWsAux rest []
    else splitWsAux rest (c :: acc)

/-- Python `str.split()` with no argument: split on whitespace runs,
producing no empty words. -/
def pySplitWs (s : Str) : List Str := splitWsAux s []

/-- The `tone_marks` table of `ChineseDictionary._format_pinyin`: for each
plain vowel, its five marked forms (tones 1–4 and the unmarked neutral). -/
def tone_marks (v : Char) : List Char :=
  if v = 'a' then ['ā', 'á', 'ǎ', 'à', 'a']
  else if v = 'e' then ['ē', 'é', 'ě', 'è', 'e']
  else if v = 'i' then ['ī', 'í', 'ǐ', 'ì', 'i']
  else if v = 'o' then ['ō', 'ó', 'ǒ', 'ò', 'o']
  else if v = 'u' then ['ū', 'ú', 'ǔ', 'ù', 'u']
  else if v = 'ü' then ['ǖ', 'ǘ', 'ǚ', 'ǜ', 'ü']
  else []

/-- The fixed vowel priority scan of `add_tone`: `a, e, o, i, u, ü`, first
vowel present in the syllable wins; returns the vowel and the index of its
first occurrence (Python `syllable_no_tone.index(vowel)`). -/
def firstVowel (s : Str) : Option (Char × Nat) :=
  ['a', 'e', 'o', 'i', 'u', 'ü'].findSome? fun v =>
    (s.findIdx? (· = v)).map fun i => (v, i)

/-- The inner `add_tone` of `ChineseDictionary._format_pinyin`: find the
first digit (the tone number), strip all digits, then put the tone mark on
the first vowel in priority order `a, e, o, i, u, ü`.  Python evaluates
`tone_marks[vowel][int(digit) - 1]`, which raises `IndexError` (modelled as
`none`) for digits 6–9 and silently wraps to the unmarked form for digit 0. -/
def add_tone (syllable : Str) : Option Str :=
  match syllable.find? (·.isDigit) with
  | none => some syllable
  | some d =>
    let tone_num : Int := (d.toNat : Int) - ('0'.toNat : Int) - 1
    let s := syllable.filter (fun c => !c.isDigit)
    match firstVowel s with
    | none => some s
    | some (v, idx) =>
      match pyIdx (tone_marks v) tone_num with
      | none => none
      | some nv => some (s.take idx ++ nv :: s.drop (idx + 1))

/-- The renderer `ChineseDictionary._format_pinyin`: split the raw pinyin on whitespace,
render each syllable with `add_tone`, and rejoin with single spaces. -/
def format_pinyin (pinyin_raw : Str) : Option Str :=
  (pySplitWs pinyin_raw |>.mapM add_tone).map (List.intercalate [' '])

/-- A parsed CC-CEDICT entry, as built by `ChineseDictionary._load_dictionary`
(the Python dict literal `entry`). -/
structure CEntry where
  text : Str
  traditional : Str
  simplified : Str
  pinyin : Str
  pinyin_raw : Str
  definition : Str
deriving DecidableEq

/-! ### The dictionary line parser

`_load_dictionary` matches each stripped line against the Python regex
`^(.+?)\s+(.+?)\s+\[(.+?)\]\s+/(.+?)/$`.  The candidate splits below model
one regex atom each, listed in the backtracking engine's preference order:
a lazy `(.+?)` tries the shortest extension first, a greedy `\s+` tries the
longest whitespace run first. -/

/-- Candidate splits for a lazy `(.+?)` (one or more non-newline characters),
shortest first. -/
def splitsLazy (s : Str) : List (Str × Str) :=
  ((List.range s.length).map fun k => (s.take (k + 1), s.drop (k + 1))).filter
    fun pr => pr.1.all (· ≠ '\n')

/-- Candidate splits for a greedy `\s+` (one or more whitespace characters),
longest first. -/
def splitsWsGreedy (s : Str) : List (Str × Str) :=
  let n := (s.takeWhile isPyWs).length
  (List.range n).map fun j => (s.take (n - j), s.drop (n - j))

/-- The anchored match of `^(.+?)\s+(.+?)\s+\[(.+?)\]\s+/(.+?)/$` against a
full line, with Python's backtracking preference order; returns the four
captured groups (traditional, simplified, pinyin, definitions). -/
def parse_line (line : Str) : Option (Str × Str × Str × Str) :=
  (splitsLazy line).findSome? fun pr1 =>
    (splitsWsGreedy pr1.2).findSome? fun pw1 =>
      (splitsLazy pw1.2).findSome? fun pr2 =>
        (splitsWsGreedy pr2.2).findSome? fun pw2 =>
          match pw2.2 with
          | '[' :: r5 =>
            (splitsLazy r5).findSome? fun pr3 =>
              match pr3.2 with
              | ']' :: r7 =>
                (splitsWsGreedy r7).findSome? fun pw3 =>
                  match pw3.2 with
                  | '/' :: r9 =>
                    (splitsLazy r9).findSome? fun pr4 =>
                      match pr4.2 with
                      | ['/'] => some (pr1.1, pr2.1, pr3.1, pr4.1)
                      | _ => none
                  | _ => none
              | _ => none
          | _ => none

/-! ### Rendering pinyin embedded in definitions

`_format_definition_pinyin` rewrites every occurrence of the pattern
`\[([a-züA-ZÜ]+\d+(?:\s+[a-züA-ZÜ]+\d+)*)\]` inside a definition with the
rendered pinyin of the captured group.  The character classes involved are
pairwise disjoint, so the match at a given position is deterministic. -/

/-- The character class `[a-züA-ZÜ]` of the embedded-pinyin pattern. -/
def isPinyinLetter (c : Char) : Bool :=
  ('a' ≤ c && c ≤ 'z') || ('A' ≤ c && c ≤ 'Z') || c = 'ü' || c = 'Ü'

/-- Take a non-empty maximal run of characters satisfying `p` (a greedy `+`
on a character class); `none` when the run is empty. -/
def takePlus (p : Char → Bool) (s : Str) : Option (Str × Str) :=
  let pre := s.takeWhile p
  if pre.isEmpty then none else some (pre, s.dropWhile p)

/-- Greedy `(?:\s+[a-züA-ZÜ]+\d+)*` after the first syllable: consume as many
whitespace-letters-digits groups as possible; returns the consumed text and
the rest.  The fuel is the length of the input, which suffices because every
iteration consumes at least three characters. -/
def matchMoreF : Nat → Str → Str × Str
  | 0, s => ([], s)
  | Nat.succ f, s =>
    match takePlus isPyWs s with
    | none => ([], s)
    | some (w, r1) =>
      match takePlus isPinyinLetter r1 with
      | none => ([], s)
      | some (l, r2) =>
        match takePlus (·.isDigit) r2 with
        | none => ([], s)
        | some (dg, r3) =>
          let pr := matchMoreF f r3
          (w ++ l ++ dg ++ pr.1, pr.2)

/-- Attempt to match `[a-züA-ZÜ]+\d+(?:\s+[a-züA-ZÜ]+\d+)*\]` directly after
an opening bracket; returns the captured group (without brackets) and the
rest of the text after the closing bracket. -/
def matchPinyinBracket (s : Str) : Option (Str × Str) :=
  match takePlus isPinyinLetter s with
  | none => none
  | some (l, r1) =>
    match takePlus (·.isDigit) r1 with
    | none => none
    | some (dg, r2) =>
      let pr := matchMoreF r2.length r2
      match pr.2 with
      | ']' :: r4 => some (l ++ dg ++ pr.1, r4)
      | _ => none

/-- Fuelled scan of `_format_definition_pinyin`: replace each embedded
bracketed pinyin group by its rendered form, copying all other characters.
Every step consumes at least one character, so fuel `s.length + 1` is exact. -/
def fdpF : Nat → Str → Option Str
  | 0, _ => none
  | Nat.succ f, s =>
    match s with
    | [] => some []
    | '[' :: rest =>
      match matchPinyinBracket rest with
      | some (g, r) =>
        match format_pinyin g with
        | none => none
        | some fp =>
          match fdpF f r with
          | none => none
          | some tail => some (fp ++ tail)
      | none =>
        match fdpF f rest with
        | none => none
        | some tail => some ('[' :: tail)
    | c :: rest =>
      match fdpF f rest with
      | none => none
      | some tail => some (c :: tail)

/-- The renderer `ChineseDictionary._format_definition_pinyin`. -/
def format_definition_pinyin (definition : Str) : Option Str :=
  fdpF (definition.length + 1) definition

/-! ### Building and querying the index -/

/-- The index `ChineseDictionary.entries`: a string-keyed dictionary with
insertion order, each key holding the ordered list of its entries. -/
abbrev DictIndex := List (Str × List CEntry)

/-- Python `dict.get`: the value of the (unique) binding of `k`, scanning in
insertion order. -/
def dictGet (m : DictIndex) (k : Str) : Option (List CEntry) :=
  match m with
  | [] => none
  | (k', v) :: rest => if k' = k then some v else dictGet rest k

/-- The idiom `if k not in entries: entries[k] = []` followed by
`entries[k].append(e)`: append to the existing binding, or create one. -/
def dictAppend (m : DictIndex) (k : Str) (e : CEntry) : DictIndex :=
  match m with
  | [] => [(k, [e])]
  | (k', v) :: rest =>
    if k' = k then (k', v ++ [e]) :: rest else (k', v) :: dictAppend rest k e

/-- The entry dict built by `_load_dictionary` from the four captured groups
of one line; `none` when rendering the pinyin raises (uncaught in Python). -/
def line_entry (t s p dfn : Str) : Option CEntry :=
  match format_pinyin p with
  | none => none
  | some fp =>
      match format_definition_pinyin dfn with
      | none => none
      | some fd =>
          some { text := s, traditional := t, simplified := s,
                 pinyin := fp, pinyin_raw := p, definition := fd }

/-- One iteration of the `_load_dictionary` loop: strip the line, skip
comments, blanks and non-matching lines, otherwise index the entry under the
simplified form and, when different, under the traditional form. -/
def processLine (m : DictIndex) (raw : Str) : Except Unit DictIndex :=
  let line := pyStrip raw
  if line = [] then .ok m
  else if line.head? = some '#' then .ok m
  else
    match parse_line line with
    | none => .ok m
    | some (t, s, p, dfn) =>
      match line_entry t s p dfn with
      | none => .error ()
      | some e =>
        let m1 := dictAppend m s e
        .ok (if t = s then m1 else dictAppend m1 t e)

/-- The loader `ChineseDictionary._load_dictionary` over the lines of the source file
(an absent file gives the empty line list, hence the empty index). -/
def load_dictionary (lines : List Str) : Except Unit DictIndex :=
  lines.foldlM processLine []

/-- The query `ChineseDictionary.lookup`: `self.entries.get(phrase)` — the list of
matching entries, or `None` if not found. -/
def lookup (m : DictIndex) (phrase : Str) : Option (List CEntry) :=
  dictGet m phrase

/-- The query `ChineseDictionary.lookup_best`: the first entry of a truthy lookup
result, otherwise `None`. -/
def lookup_best (m : DictIndex) (phrase : Str) : Option CEntry :=
  match lookup m phrase with
  | some (e :: _) => some e
  | _ => none

/-! ### Recursive pinyin assembly

`ChineseDictionary.get_pinyin`: the empty phrase yields the empty pinyin;
otherwise the `for end_index in range(len(phrase), 0, -1)` loop tries each
prefix, longest first, and returns on the first prefix that both has an
entry and whose remainder resolves recursively; `None` when none does.
`gpScan d phrase h k` is the loop restricted to `end_index ∈ [1, k]`. -/

mutual

def get_pinyin (d : DictIndex) (phrase : Str) : Option Str :=
  if h : phrase = [] then some [] else gpScan d phrase h phrase.length
termination_by (phrase.length, phrase.length + 1)
decreasing_by
  apply Prod.Lex.right
  omega

def gpScan (d : DictIndex) (phrase : Str) (h : phrase ≠ []) (k : Nat) : Option Str :=
  match k with
  | 0 => none
  | Nat.succ j =>
    match lookup_best d (phrase.take (j + 1)) with
    | some entry =>
      match get_pinyin d (phrase.drop (j + 1)) with
      | some r => some (entry.pinyin ++ ' ' :: r)
      | none => gpScan d phrase h j
    | none => gpScan d phrase h j
termination_by (phrase.length, k)
decreasing_by
  all_goals
    first
    | (apply Prod.Lex.right; omega)
    | (apply Prod.Lex.left
       have hp : phrase.length ≠ 0 := fun hc => h (List.eq_nil_of_length_eq_zero hc)
       simp only [List.length_drop]
       omega)

end

/-! ### The HSK level resolver (`resources/utils.py`)

The vocabulary table maps a simplified phrase to the level field of its JSON
record, a list of label strings (for example `["new-1", "old-1"]`).
`_lookup_hsk_level` takes the last label (`lvl[-1]`, raising on an empty
list) and keeps only its digit and `+` characters.  `get_hsk_level` falls
back to the direct levels of all contiguous substrings and takes the
maximum under the key `(-1, False)` for `None` and
`(int(s.rstrip("+")), s.endswith("+"))` for a present level — where `int`
raises unless its argument is a non-empty digit string. -/

/-- The HSK vocabulary: phrase to list of level labels. -/
abbrev HskTable := List (Str × List Str)

/-- Lookup in the vocabulary mapping (the dict built by
`get_hsk_vocabulary`). -/
def hskGet (t : HskTable) (k : Str) : Option (List Str) :=
  match t with
  | [] => none
  | (k', v) :: rest => if k' = k then some v else hskGet rest k

/-- The resolver `_lookup_hsk_level`: direct lookup; on a hit, take the last label and
strip every character other than digits and `+` (`re.sub(r"[^0-9+]", "", lvl[-1])`);
an empty label list raises `IndexError`. -/
def lookup_hsk_level (t : HskTable) (phrase : Str) : Except Unit (Option Str) :=
  match hskGet t phrase with
  | none => .ok none
  | some labels =>
    match labels.getLast? with
    | none => .error ()
    | some lab => .ok (some (lab.filter fun c => c.isDigit || c = '+'))

/-- Python `s.rstrip("+")`: drop trailing `+` characters. -/
def rstripPlus (s : Str) : Str :=
  (s.reverse.dropWhile (· = '+')).reverse

/-- Python `int(s)` on the stripped level: succeeds exactly on a non-empty
all-digit string (no sign handling is needed for these inputs). -/
def pyInt (s : Str) : Option Int :=
  if s ≠ [] ∧ s.all (·.isDigit) then
    some ((s.foldl (fun acc c => acc * 10 + (c.toNat - '0'.toNat)) 0 : Nat) : Int)
  else none

/-- The `key` function of the `max` call in `get_hsk_level`:
`(-1, False)` for `None`, `(int(s.rstrip("+")), s.endswith("+"))` for a
present level; `none` when `int` raises. -/
def levelKey (lvl : Option Str) : Option (Int × Bool) :=
  match lvl with
  | none => some (-1, false)
  | some s =>
    match pyInt (rstripPlus s) with
    | none => none
    | some n =>
      some (n, decide (s.getLast? = some '+'))

/-- Python's ordering on the key tuples: lexicographic, with
`False < True`. -/
def keyLt (a b : Int × Bool) : Bool :=
  a.1 < b.1 || (a.1 = b.1 && (a.2 = false && b.2 = true))

/-- The fold inside Python `max(xs, key=...)`: keep the current best, and
let a later element replace it only when its key is strictly greater. -/
def foldBest (first : Option Str × (Int × Bool))
    (rest : List (Option Str × (Int × Bool))) : Option Str × (Int × Bool) :=
  rest.foldl (fun best x => if keyLt best.2 x.2 then x else best) first

/-- Python `max(xs, key=...)`: the first element whose key is maximal. -/
def maxByKey (first : Option Str × (Int × Bool))
    (rest : List (Option Str × (Int × Bool))) : Option Str :=
  (foldBest first rest).1

/-- The substring enumeration
`{phrase[i:j] for i in range(len(phrase)) for j in range(i+1, len(phrase)+1)}`
of `get_hsk_level`, deduplicated as a Python `set` (one fixed order; the
claims proved below do not depend on the set's iteration order). -/
def hskSubstrings (phrase : Str) : List Str :=
  (((List.range phrase.length).map fun i =>
      (List.range (phrase.length - i)).map fun dj =>
        ((phrase.drop i).take (dj + 1))).flatten).dedup

/-- The resolver `get_hsk_level`: the direct level when present; otherwise the maximum,
under `levelKey`, of the direct levels of all contiguous substrings.
Raising (`ValueError` from `max` on an empty sequence or from `int`,
`IndexError` from `lvl[-1]`) is modelled as `.error`. -/
def get_hsk_level (t : HskTable) (phrase : Str) : Except Unit (Option Str) :=
  match lookup_hsk_level t phrase with
  | .error e => .error e
  | .ok (some lvl) => .ok (some lvl)
  | .ok none =>
    match (hskSubstrings phrase).mapM (lookup_hsk_level t) with
    | .error e => .error e
    | .ok lvls =>
      match lvls.mapM levelKey with
      | none => .error ()
      | some keys =>
        match lvls.zip keys with
        | [] => .error ()
        | first :: rest => .ok (maxByKey first rest)

/-! ### The annotation pipeline (`text_processor.py`)

`Phrase.populate` stores, depending on the branch taken, a plain string, a
1-tuple of a string (note the trailing commas in the source), a pending
`Future`, or `None` into the `pinyin` / `definition` / `hsk_level` fields;
`PyVal` models this union of run-time value shapes.  A `Future` submitted to
the translation executor is modelled by the text it carries, and resolving
it applies the external translator function. -/

/-- A Python run-time value held by a `Phrase` field: a string, a tuple of
strings, a pending translation `Future` for some text, or `None`. -/
inductive PyVal where
  | pstr : Str → PyVal
  | ptup : List Str → PyVal
  | fut : Str → PyVal
  | pnone : PyVal
deriving DecidableEq

/-- The `Phrase` dataclass of `text_processor.py`, with its field defaults. -/
structure Phrase where
  text : Str
  pinyin : PyVal := .pstr []
  definition : PyVal := .pstr []
  hsk_level : PyVal := .pstr "N/A".toList
  all_entries : Option (List CEntry) := some []
  is_sentence_end : Bool := false
deriving DecidableEq

/-- Modelled from the spec: `is_chinese_ideograph` calls
`unicodedata.category(char) == "Lo"`, which is outside the source; §4.5
describes it as the Other Letter category restricted to the CJK ranges,
modelled here as the CJK unified ideograph blocks. -/
def is_chinese_ideograph (c : Char) : Bool :=
  (0x4E00 ≤ c.toNat && c.toNat ≤ 0x9FFF) || (0x3400 ≤ c.toNat && c.toNat ≤ 0x4DBF)

/-- The method `Phrase.populate`.  The module `resources/dictionary.py` it imports is
not part of the source tree; per the spec (§4.1, §4.3) its `cedict_lookup`
and `get_pinyin` delegate to the `ChineseDictionary` index and recursive
pinyin assembly embedded above, and `hf_translate` is the external
translation collaborator, submitted as a `Future`.  Note the trailing
commas in the source: the dictionary-hit branch assigns 1-tuples. -/
def populate (m : DictIndex) (t : HskTable) (ph : Phrase) : Except Unit Phrase :=
  if ph.is_sentence_end then .ok { ph with definition := .fut ph.text }
  else if !(ph.text.all is_chinese_ideograph) then .ok ph
  else
    match get_hsk_level t ph.text with
    | .error u => .error u
    | .ok lvl =>
      let lvlVal : PyVal := match lvl with | some s => .pstr s | none => .pnone
      match lookup m ph.text with
      | some (e :: es) =>
        let entries := e :: es
        let all_pinyin := entries.foldl
          (fun acc en => if en.pinyin ≠ [] ∧ en.pinyin ∉ acc then acc ++ [en.pinyin] else acc) []
        let all_definitions := entries.foldl
          (fun acc en =>
            if en.definition ≠ [] ∧ en.definition ∉ acc then acc ++ [en.definition] else acc) []
        .ok { ph with
          pinyin := .ptup [if all_pinyin ≠ [] then List.intercalate " / ".toList all_pinyin
                           else "[Not found]".toList],
          definition := .ptup [if all_definitions ≠ [] then
                                 List.intercalate " | ".toList all_definitions
                               else "[Not found]".toList],
          all_entries := some entries,
          hsk_level := lvlVal }
      | entriesRes =>
        .ok { ph with
          pinyin := match get_pinyin m ph.text with | some s => .pstr s | none => .pnone,
          definition := .fut ph.text,
          all_entries := entriesRes,
          hsk_level := lvlVal }

/-- The constructor call `Phrase(text=...)`: construct with defaults and run `__post_init__`,
which calls `populate`. -/
def mkPhrase (m : DictIndex) (t : HskTable) (text : Str) : Except Unit Phrase :=
  populate m t { text := text }

/-- The constructor call `Phrase(text=..., is_sentence_end=True)`. -/
def mkSentencePhrase (m : DictIndex) (t : HskTable) (text : Str) : Except Unit Phrase :=
  populate m t { text := text, is_sentence_end := true }

/-- The method `Phrase.resolve_translation`: if the definition is a pending `Future`,
replace it by the translator's result for the submitted text. -/
def resolve_translation (tr : Str → Str) (ph : Phrase) : Phrase :=
  match ph.definition with
  | .fut s => { ph with definition := .pstr (tr s) }
  | _ => ph

/-- The JSON-serializable dict built by `Phrase.to_dict`: the
`is_sentence_end` key is present only when the flag is set. -/
structure PhraseDict where
  text : Str
  pinyin : PyVal
  definition : PyVal
  hsk_level : PyVal
  all_entries : Option (List CEntry)
  is_sentence_end : Option Bool
deriving DecidableEq

/-- The serializer `Phrase.to_dict`. -/
def to_dict (ph : Phrase) : PhraseDict :=
  { text := ph.text, pinyin := ph.pinyin, definition := ph.definition,
    hsk_level := ph.hsk_level, all_entries := ph.all_entries,
    is_sentence_end := if ph.is_sentence_end then some true else none }

/-- One iteration of the token loop in `process_chinese_text`, over the
state `(processed_phrases, sentence_phrases)`: build the `Phrase` for the
token; on the terminator `。` join the buffered texts, strip, and append
either the combined sentence phrase (buffer text non-empty) or the
terminator's own phrase, resetting the buffer; otherwise append the phrase
to both the output and the buffer. -/
def pipelineStep (m : DictIndex) (t : HskTable) (st : List Phrase × List Phrase)
    (tokText : Str) : Except Unit (List Phrase × List Phrase) :=
  match mkPhrase m t tokText with
  | .error u => .error u
  | .ok ph =>
    if tokText = "。".toList then
      let sentence_text := (st.2.map (·.text)).flatten
      let full_sentence := pyStrip sentence_text
      if full_sentence = [] then .ok (st.1 ++ [ph], [])
      else
        match mkSentencePhrase m t full_sentence with
        | .error u => .error u
        | .ok ph2 => .ok (st.1 ++ [ph2], [])
    else .ok (st.1 ++ [ph], st.2 ++ [ph])

/-- The body of `process_chinese_text` after segmentation: fold the token
loop, then resolve every pending translation in input order and serialize. -/
def process_tokens (m : DictIndex) (t : HskTable) (tr : Str → Str)
    (tokens : List Str) : Except Unit (List PhraseDict) :=
  match tokens.foldlM (pipelineStep m t) ([], []) with
  | .error u => .error u
  | .ok st => .ok ((st.1.map (resolve_translation tr)).map to_dict)

/-- The result dict of `process_chinese_text`. -/
structure ProcResult where
  phrases : List PhraseDict
  original_text : Str
deriving DecidableEq

/-- The entry point `process_chinese_text`: empty input short-circuits; otherwise the
external tokenizer collaborator `seg` (the hanlp model, outside the source;
§6 gives its contract) supplies the token sequence. -/
def process_chinese_text (m : DictIndex) (t : HskTable) (tr : Str → Str)
    (seg : Str → List Str) (text : Str) : Except Unit ProcResult :=
  if text = [] then .ok { phrases := [], original_text := text }
  else
    match process_tokens m t tr (seg text) with
    | .error u => .error u
    | .ok ps => .ok { phrases := ps, original_text := text }

/-! ### Statement-side definitions

The definitions below do not embed source code; they are the vocabulary in
which the claims are stated: the spec's committed longest-prefix pinyin
assembly (to compare against the source's backtracking one), the file-order
entry enumeration, well-formedness of an HSK table, the key ordering, and
the success/failure of one prefix trial of `get_pinyin`. -/

/-- The longest non-empty prefix of `phrase` of length at most `k` that has
a dictionary entry, with its first entry. -/
def longestEntryPre (d : DictIndex) (phrase : Str) : Nat → Option (Nat × CEntry)
  | 0 => none
  | Nat.succ j =>
    match lookup_best d (phrase.take (j + 1)) with
    | some e => some (j + 1, e)
    | none => longestEntryPre d phrase j

/-- Written to the spec's words for the committed `assemblePinyin`: an empty
phrase yields empty pinyin; otherwise find the longest prefix with a
dictionary entry, commit to it, recursively resolve only the remainder, and
concatenate with a single space; absent when there is no matching prefix or
the committed remainder is absent. -/
def assemblePinyinSpeced (d : DictIndex) (phrase : Str) : Option Str :=
  if h : phrase = [] then some []
  else
    match hk : longestEntryPre d phrase phrase.length with
    | none => none
    | some ke =>
      match assemblePinyinSpeced d (phrase.drop ke.1) with
      | some r => some (ke.2.pinyin ++ ' ' :: r)
      | none => none
termination_by phrase.length
decreasing_by
  have hone : ∀ n ke, longestEntryPre d phrase n = some ke → 1 ≤ ke.1 := by
    intro n
    induction n with
    | zero => intro ke hke; exact absurd hke (by simp [longestEntryPre])
    | succ j ih =>
      intro ke hke
      simp only [longestEntryPre] at hke
      rcases hlb : lookup_best d (phrase.take (j + 1)) with _ | e <;> rw [hlb] at hke
      · exact ih ke hke
      · cases hke; omega
  have h1 := hone _ _ hk
  have hp : phrase.length ≠ 0 := fun hc => h (List.eq_nil_of_length_eq_zero hc)
  simp only [List.length_drop]
  omega

/-- Success of the prefix trial at `end_index = e` in the `get_pinyin` loop:
the prefix has an entry and the remainder resolves, producing `s`. -/
def TrialOk (d : DictIndex) (phrase : Str) (e : Nat) (s : Str) : Prop :=
  ∃ entry r, lookup_best d (phrase.take e) = some entry ∧
    get_pinyin d (phrase.drop e) = some r ∧ s = entry.pinyin ++ ' ' :: r

/-- Failure of the prefix trial at `end_index = e`: either the prefix has no
entry, or the remainder does not resolve. -/
def TrialFail (d : DictIndex) (phrase : Str) (e : Nat) : Prop :=
  ∀ entry, lookup_best d (phrase.take e) = some entry →
    get_pinyin d (phrase.drop e) = none

/-- The entries a single raw line contributes under the key `p` in
`_load_dictionary`: its parsed entry, once, when `p` is the line's
simplified or traditional form. -/
def lineContrib (p : Str) (raw : Str) : List CEntry :=
  let line := pyStrip raw
  if line = [] then []
  else if line.head? = some '#' then []
  else
    match parse_line line with
    | none => []
    | some (t, s, pp, dfn) =>
      match line_entry t s pp dfn with
      | none => []
      | some e => if s = p ∨ t = p then [e] else []

/-- All entries indexed under `p`, in file order. -/
def fileOrderEntries (lines : List Str) (p : Str) : List CEntry :=
  (lines.map (lineContrib p)).flatten

/-- A table is well formed when every record has at least one label and the
effective level of its last label survives the `max` key (a non-empty digit
run, optionally `+`-suffixed), so that resolution never raises on it. -/
def wellFormedHsk (t : HskTable) : Bool :=
  t.all fun pr =>
    match pr.2.getLast? with
    | none => false
    | some lab => (levelKey (some (lab.filter fun c => c.isDigit || c = '+'))).isSome

/-- The claim's ordering on level keys: numeric tier ascending, and for
equal tiers the `+`-suffixed label above the bare one. -/
def keyLe (a b : Int × Bool) : Prop :=
  a.1 < b.1 ∨ (a.1 = b.1 ∧ (a.2 = true → b.2 = true))

def mkE (w p : Str) : CEntry :=
  { text := w, traditional := w, simplified := w,
    pinyin := p, pinyin_raw := p, definition := [] }

/-! ## Helper lemmas -/

/-- Running `populate` never changes the `text` or `is_sentence_end` fields. -/
theorem populate_preserves (m : DictIndex) (t : HskTable) (ph ph' : Phrase)
    (h : populate m t ph = .ok ph') :
    ph'.text = ph.text ∧ ph'.is_sentence_end = ph.is_sentence_end := by
  unfold populate at h
  repeat' split at h
  all_goals first
  | (cases h; exact ⟨rfl, rfl⟩)
  | cases h

/-! ## Claim C10 -/

/-- C10: for the empty input string, `process_chinese_text` returns
`{phrases: [], original_text: ""}` immediately; the result is the same for
every dictionary index, HSK table, translator and segmenter, i.e. none of
the collaborators is consulted. -/
theorem process_chinese_text_empty (m : DictIndex) (t : HskTable)
    (tr : Str → Str) (seg : Str → List Str) :
    process_chinese_text m t tr seg [] = .ok { phrases := [], original_text := [] } := rfl

/-! ## Claim C1 -/

/-- C1 counterexample: on the token sequence `[一, 二, 。, 三]` the pipeline
emits FOUR phrases — the buffered phrases `一` and `二` each appear
individually in the output, followed by the combined sentence phrase `一二`
(with `is_sentence_end`) and `三` — not the two phrases the claim states. -/
theorem sentence_grouping_counterexample :
    process_tokens [] [] (fun _ => "g".toList)
        ["一".toList, "二".toList, "。".toList, "三".toList]
      = .ok
        [{ text := "一".toList, pinyin := .pnone, definition := .pstr "g".toList,
           hsk_level := .pnone, all_entries := none, is_sentence_end := none },
         { text := "二".toList, pinyin := .pnone, definition := .pstr "g".toList,
           hsk_level := .pnone, all_entries := none, is_sentence_end := none },
         { text := "一二".toList, pinyin := .pstr [], definition := .pstr "g".toList,
           hsk_level := .pstr "N/A".toList, all_entries := some [],
           is_sentence_end := some true },
         { text := "三".toList, pinyin := .pnone, definition := .pstr "g".toList,
           hsk_level := .pnone, all_entries := none, is_sentence_end := none }]
    ∧ ¬ ∃ p q : PhraseDict,
        process_tokens [] [] (fun _ => "g".toList)
            ["一".toList, "二".toList, "。".toList, "三".toList] = .ok [p, q] := by
  constructor
  · simp [process_tokens, pipelineStep, mkPhrase, mkSentencePhrase, populate, get_pinyin,
      gpScan, lookup_best, lookup, dictGet, get_hsk_level, lookup_hsk_level, hskGet,
      hskSubstrings, resolve_translation, to_dict, pyStrip, is_chinese_ideograph]
    rfl
  · rintro ⟨p, q, hpq⟩
    have h4 :
        process_tokens [] [] (fun _ => "g".toList)
            ["一".toList, "二".toList, "。".toList, "三".toList]
          = .ok
            [{ text := "一".toList, pinyin := .pnone, definition := .pstr "g".toList,
               hsk_level := .pnone, all_entries := none, is_sentence_end := none },
             { text := "二".toList, pinyin := .pnone, definition := .pstr "g".toList,
               hsk_level := .pnone, all_entries := none, is_sentence_end := none },
             { text := "一二".toList, pinyin := .pstr [], definition := .pstr "g".toList,
               hsk_level := .pstr "N/A".toList, all_entries := some [],
               is_sentence_end := some true },
             { text := "三".toList, pinyin := .pnone, definition := .pstr "g".toList,
               hsk_level := .pnone, all_entries := none, is_sentence_end := none }] := by
      simp [process_tokens, pipelineStep, mkPhrase, mkSentencePhrase, populate, get_pinyin,
        gpScan, lookup_best, lookup, dictGet, get_hsk_level, lookup_hsk_level, hskGet,
        hskSubstrings, resolve_translation, to_dict, pyStrip, is_chinese_ideograph]
      rfl
    rw [h4] at hpq
    simp at hpq

/-- Bind of a success in the `Except` monad reduces to the continuation. -/
theorem exceptOkBind {ε α β : Type} (x : α) (f : α → Except ε β) :
    (Except.ok x >>= f : Except ε β) = f x := rfl

/-- The terminator token `。` is not ideographic, so its phrase keeps all
field defaults, for every index and table. -/
theorem mkPhrase_terminator (m : DictIndex) (t : HskTable) :
    mkPhrase m t "。".toList = .ok { text := "。".toList } := rfl

/-- Running `resolve_translation` never changes `text` or `is_sentence_end`. -/
theorem resolve_translation_preserves (tr : Str → Str) (ph : Phrase) :
    (resolve_translation tr ph).text = ph.text ∧
    (resolve_translation tr ph).is_sentence_end = ph.is_sentence_end := by
  unfold resolve_translation
  split <;> exact ⟨rfl, rfl⟩

/-- C1 amended: on `[A, B, 。, C]` the pipeline emits the buffered phrases
`A` and `B` individually, then the combined sentence phrase (trimmed
concatenation of the buffered texts, `is_sentence_end` set) in place of the
terminator token only, then `C`. -/
theorem sentence_grouping_amended (m : DictIndex) (t : HskTable) (tr : Str → Str)
    (A B C : Str) (pA pB pC pS : Phrase)
    (hA : A ≠ "。".toList) (hB : B ≠ "。".toList) (hC : C ≠ "。".toList)
    (hS : pyStrip (A ++ B) ≠ [])
    (hpA : mkPhrase m t A = .ok pA) (hpB : mkPhrase m t B = .ok pB)
    (hpC : mkPhrase m t C = .ok pC)
    (hpS : mkSentencePhrase m t (pyStrip (A ++ B)) = .ok pS) :
    process_tokens m t tr [A, B, "。".toList, C]
      = .ok [to_dict (resolve_translation tr pA), to_dict (resolve_translation tr pB),
             to_dict (resolve_translation tr pS), to_dict (resolve_translation tr pC)]
    ∧ (to_dict (resolve_translation tr pA)).text = A
    ∧ (to_dict (resolve_translation tr pB)).text = B
    ∧ (to_dict (resolve_translation tr pS)).text = pyStrip (A ++ B)
    ∧ (to_dict (resolve_translation tr pS)).is_sentence_end = some true
    ∧ (to_dict (resolve_translation tr pC)).text = C := by
  obtain ⟨htA, -⟩ := populate_preserves m t _ pA hpA
  obtain ⟨htB, -⟩ := populate_preserves m t _ pB hpB
  obtain ⟨htC, -⟩ := populate_preserves m t _ pC hpC
  obtain ⟨htS, heS⟩ := populate_preserves m t _ pS hpS
  have hA' : ¬(A = ['。']) := by simpa using hA
  have hB' : ¬(B = ['。']) := by simpa using hB
  have hC' : ¬(C = ['。']) := by simpa using hC
  have h1 : pipelineStep m t ([], []) A = .ok ([pA], [pA]) := by
    simp [pipelineStep, hpA, hA']
  have h2 : pipelineStep m t ([pA], [pA]) B = .ok ([pA, pB], [pA, pB]) := by
    simp [pipelineStep, hpB, hB']
  have h3 : pipelineStep m t ([pA, pB], [pA, pB]) "。".toList = .ok ([pA, pB, pS], []) := by
    simp [pipelineStep, mkPhrase_terminator, htA, htB, hS, hpS]
    try rfl
  have h4 : pipelineStep m t ([pA, pB, pS], []) C = .ok ([pA, pB, pS, pC], [pC]) := by
    simp [pipelineStep, hpC, hC']
  have hfold : List.foldlM (pipelineStep m t) (([], []) : List Phrase × List Phrase)
      [A, B, "。".toList, C] = .ok ([pA, pB, pS, pC], [pC]) := by
    rw [List.foldlM_cons, h1, exceptOkBind, List.foldlM_cons, h2, exceptOkBind,
      List.foldlM_cons, h3, exceptOkBind, List.foldlM_cons, h4, exceptOkBind,
      List.foldlM_nil]
    rfl
  refine ⟨?_, ?_, ?_, ?_, ?_, ?_⟩
  · unfold process_tokens
    rw [hfold]
    rfl
  · simpa [to_dict] using (resolve_translation_preserves tr pA).1.trans htA
  · simpa [to_dict] using (resolve_translation_preserves tr pB).1.trans htB
  · simpa [to_dict] using (resolve_translation_preserves tr pS).1.trans htS
  · simp [to_dict, (resolve_translation_preserves tr pS).2, heS]
  · simpa [to_dict] using (resolve_translation_preserves tr pC).1.trans htC

/-- C1 amended, witnessed on `[好, 大, 。, 人]` with an empty index and
table and the identity translator. -/
theorem sentence_grouping_amended_witness :
    process_tokens [] [] (fun s => s)
        ["好".toList, "大".toList, "。".toList, "人".toList]
      = .ok [to_dict (resolve_translation (fun s => s)
               { text := "好".toList, pinyin := .pnone, definition := .fut "好".toList,
                 hsk_level := .pnone, all_entries := none }),
             to_dict (resolve_translation (fun s => s)
               { text := "大".toList, pinyin := .pnone, definition := .fut "大".toList,
                 hsk_level := .pnone, all_entries := none }),
             to_dict (resolve_translation (fun s => s)
               { text := "好大".toList, definition := .fut "好大".toList,
                 is_sentence_end := true }),
             to_dict (resolve_translation (fun s => s)
               { text := "人".toList, pinyin := .pnone, definition := .fut "人".toList,
                 hsk_level := .pnone, all_entries := none })]
    ∧ (to_dict (resolve_translation (fun s => s)
         { text := "好".toList, pinyin := .pnone, definition := .fut "好".toList,
           hsk_level := .pnone, all_entries := none })).text = "好".toList
    ∧ (to_dict (resolve_translation (fun s => s)
         { text := "大".toList, pinyin := .pnone, definition := .fut "大".toList,
           hsk_level := .pnone, all_entries := none })).text = "大".toList
    ∧ (to_dict (resolve_translation (fun s => s)
         { text := "好大".toList, definition := .fut "好大".toList,
           is_sentence_end := true })).text = pyStrip ("好".toList ++ "大".toList)
    ∧ (to_dict (resolve_translation (fun s => s)
         { text := "好大".toList, definition := .fut "好大".toList,
           is_sentence_end := true })).is_sentence_end = some true
    ∧ (to_dict (resolve_translation (fun s => s)
         { text := "人".toList, pinyin := .pnone, definition := .fut "人".toList,
           hsk_level := .pnone, all_entries := none })).text = "人".toList := by
  have hpA : mkPhrase [] [] "好".toList
      = .ok { text := "好".toList, pinyin := .pnone, definition := .fut "好".toList,
              hsk_level := .pnone, all_entries := none } := by
    simp [mkPhrase, populate, get_pinyin, gpScan, lookup_best, lookup, dictGet,
      get_hsk_level, lookup_hsk_level, hskGet, hskSubstrings, is_chinese_ideograph]
    try rfl
  have hpB : mkPhrase [] [] "大".toList
      = .ok { text := "大".toList, pinyin := .pnone, definition := .fut "大".toList,
              hsk_level := .pnone, all_entries := none } := by
    simp [mkPhrase, populate, get_pinyin, gpScan, lookup_best, lookup, dictGet,
      get_hsk_level, lookup_hsk_level, hskGet, hskSubstrings, is_chinese_ideograph]
    try rfl
  have hpC : mkPhrase [] [] "人".toList
      = .ok { text := "人".toList, pinyin := .pnone, definition := .fut "人".toList,
              hsk_level := .pnone, all_entries := none } := by
    simp [mkPhrase, populate, get_pinyin, gpScan, lookup_best, lookup, dictGet,
      get_hsk_level, lookup_hsk_level, hskGet, hskSubstrings, is_chinese_ideograph]
    try rfl
  have hpS : mkSentencePhrase [] [] (pyStrip ("好".toList ++ "大".toList))
      = .ok { text := "好大".toList, definition := .fut "好大".toList,
              is_sentence_end := true } := by rfl
  exact sentence_grouping_amended [] [] (fun s => s) "好".toList "大".toList "人".toList
    _ _ _ _ (by decide) (by decide) (by decide) (by decide) hpA hpB hpC hpS

/-! ## Claim C2 -/

/-- C2 (code bug): for the ideographic span `你好` with one dictionary entry
(pinyin `nǐ hǎo`, definition `hello`), `populate` stores 1-TUPLES
`("nǐ hǎo",)` and `("hello",)` into the `pinyin` and `definition` fields —
the trailing commas in the source build tuples — contradicting the
dataclass's own `pinyin: str` / `definition: str` declarations and the
claim's plain joined strings. -/
theorem populate_stores_tuples :
    populate
        [("你好".toList,
          [{ text := "你好".toList, traditional := "你好".toList,
             simplified := "你好".toList, pinyin := "nǐ hǎo".toList,
             pinyin_raw := "ni3 hao3".toList, definition := "hello".toList }])]
        [] { text := "你好".toList }
      = .ok
        { text := "你好".toList,
          pinyin := .ptup ["nǐ hǎo".toList],
          definition := .ptup ["hello".toList],
          hsk_level := .pnone,
          all_entries := some
            [{ text := "你好".toList, traditional := "你好".toList,
               simplified := "你好".toList, pinyin := "nǐ hǎo".toList,
               pinyin_raw := "ni3 hao3".toList, definition := "hello".toList }],
          is_sentence_end := false } := by rfl

/-! ## Claim C3 -/

/-- C3 counterexample: HSK resolution does not always succeed and does not
return the sentinel `"N/A"`: on the empty phrase it raises (`max` over an
empty sequence), and on a phrase with no matching substring it returns the
Python `None`, which is not the string `"N/A"`. -/
theorem get_hsk_level_counterexample :
    get_hsk_level [] [] = .error ()
    ∧ get_hsk_level [] "大".toList = .ok none
    ∧ (none : Option Str) ≠ some "N/A".toList := by
  refine ⟨rfl, rfl, ?_⟩
  simp

/-! ## Helper lemmas for the HSK resolver -/

/-- Bind of a success in the `Option` monad reduces to the continuation. -/
theorem optionSomeBind {α β : Type} (x : α) (f : α → Option β) :
    (some x >>= f : Option β) = f x := rfl

/-- A hit in the vocabulary mapping is a member of the table. -/
theorem hskGet_mem (t : HskTable) (p : Str) (v : List Str)
    (h : hskGet t p = some v) : (p, v) ∈ t := by
  induction t with
  | nil => simp [hskGet] at h
  | cons pr rest ih =>
    obtain ⟨k', v'⟩ := pr
    simp only [hskGet] at h
    split at h
    · rename_i hk
      cases h
      subst hk
      exact List.mem_cons_self _ _
    · exact List.mem_cons_of_mem _ (ih h)

/-- Over a well-formed table, a direct lookup never raises and its result
always has a computable key. -/
theorem wf_lookup_hsk (t : HskTable) (hwf : wellFormedHsk t = true) (p : Str) :
    ∃ l, lookup_hsk_level t p = .ok l ∧ (levelKey l).isSome = true := by
  unfold lookup_hsk_level
  cases hg : hskGet t p with
  | none => exact ⟨none, rfl, rfl⟩
  | some labels =>
    have hall := List.all_eq_true.mp (show List.all t _ = true from hwf) _
      (hskGet_mem _ _ _ hg)
    cases hl : labels.getLast? with
    | none => rw [hl] at hall; cases hall
    | some lab =>
      rw [hl] at hall
      refine ⟨some (lab.filter fun c => c.isDigit || c = '+'), ?_, hall⟩
      simp only [hl]

/-- Inversion of a successful `mapM` over `Except` into the pointwise
relation. -/
theorem mapMExceptForall {α β : Type} (f : α → Except Unit β) :
    ∀ (l : List α) (bs : List β), l.mapM f = .ok bs →
      List.Forall₂ (fun a b => f a = .ok b) l bs := by
  intro l
  induction l with
  | nil =>
    intro bs h
    rw [List.mapM_nil] at h
    cases h
    exact List.Forall₂.nil
  | cons a as ih =>
    intro bs h
    rw [List.mapM_cons] at h
    cases hfa : f a with
    | error u => rw [hfa] at h; cases h
    | ok b =>
      rw [hfa, exceptOkBind] at h
      cases hmas : as.mapM f with
      | error u => rw [hmas] at h; cases h
      | ok bs' =>
        rw [hmas, exceptOkBind] at h
        cases h
        exact List.Forall₂.cons hfa (ih bs' hmas)

/-- A pointwise-total `f` makes `mapM` over `Except` succeed. -/
theorem mapMExceptTotal {α β : Type} (f : α → Except Unit β) :
    ∀ (l : List α), (∀ a ∈ l, ∃ b, f a = .ok b) →
      ∃ bs, l.mapM f = .ok bs ∧ List.Forall₂ (fun a b => f a = .ok b) l bs := by
  intro l
  induction l with
  | nil => exact fun _ => ⟨[], rfl, List.Forall₂.nil⟩
  | cons a as ih =>
    intro hall
    obtain ⟨b, hb⟩ := hall a (List.mem_cons_self _ _)
    obtain ⟨bs, hbs, hF⟩ := ih fun x hx => hall x (List.mem_cons_of_mem _ hx)
    refine ⟨b :: bs, ?_, List.Forall₂.cons hb hF⟩
    rw [List.mapM_cons, hb, exceptOkBind, hbs, exceptOkBind]
    rfl

/-- Inversion of a successful `mapM` over `Option` into the pointwise
relation. -/
theorem mapMOptionForall {α β : Type} (f : α → Option β) :
    ∀ (l : List α) (bs : List β), l.mapM f = some bs →
      List.Forall₂ (fun a b => f a = some b) l bs := by
  intro l
  induction l with
  | nil =>
    intro bs h
    rw [List.mapM_nil] at h
    cases h
    exact List.Forall₂.nil
  | cons a as ih =>
    intro bs h
    rw [List.mapM_cons] at h
    cases hfa : f a with
    | none => rw [hfa] at h; cases h
    | some b =>
      rw [hfa, optionSomeBind] at h
      cases hmas : as.mapM f with
      | none => rw [hmas] at h; cases h
      | some bs' =>
        rw [hmas, optionSomeBind] at h
        cases h
        exact List.Forall₂.cons hfa (ih bs' hmas)

/-- A pointwise-total `f` makes `mapM` over `Option` succeed. -/
theorem mapMOptionTotal {α β : Type} (f : α → Option β) :
    ∀ (l : List α), (∀ a ∈ l, ∃ b, f a = some b) →
      ∃ bs, l.mapM f = some bs ∧ List.Forall₂ (fun a b => f a = some b) l bs := by
  intro l
  induction l with
  | nil => exact fun _ => ⟨[], rfl, List.Forall₂.nil⟩
  | cons a as ih =>
    intro hall
    obtain ⟨b, hb⟩ := hall a (List.mem_cons_self _ _)
    obtain ⟨bs, hbs, hF⟩ := ih fun x hx => hall x (List.mem_cons_of_mem _ hx)
    refine ⟨b :: bs, ?_, List.Forall₂.cons hb hF⟩
    rw [List.mapM_cons, hb, optionSomeBind, hbs, optionSomeBind]
    rfl

/-- Every element of the right list of a `Forall₂` is related to some
element of the left list. -/
theorem forall₂_mem_right {α β : Type} {R : α → β → Prop} :
    ∀ {l₁ : List α} {l₂ : List β}, List.Forall₂ R l₁ l₂ →
      ∀ b ∈ l₂, ∃ a ∈ l₁, R a b := by
  intro l₁ l₂ h
  induction h with
  | nil => intro b hb; cases hb
  | cons hr _ ih =>
    intro b hb
    rcases List.mem_cons.mp hb with hb | hb
    · subst hb; exact ⟨_, List.mem_cons_self _ _, hr⟩
    · obtain ⟨a, ha, har⟩ := ih b hb
      exact ⟨a, List.mem_cons_of_mem _ ha, har⟩

/-- The result of the `max` fold is one of the candidates. -/
theorem foldBest_mem :
    ∀ (rest : List (Option Str × (Int × Bool))) (first : Option Str × (Int × Bool)),
      foldBest first rest ∈ first :: rest := by
  intro rest
  induction rest with
  | nil => intro first; exact List.mem_cons_self _ _
  | cons r rest ih =>
    intro first
    show foldBest (if keyLt first.2 r.2 then r else first) rest ∈ _
    rcases List.mem_cons.mp (ih (if keyLt first.2 r.2 then r else first)) with h | h
    · rw [h]
      split
      · exact List.mem_cons_of_mem _ (List.mem_cons_self _ _)
      · exact List.mem_cons_self _ _
    · exact List.mem_cons_of_mem _ (List.mem_cons_of_mem _ h)

/-- The whole phrase is one of its contiguous substrings. -/
theorem self_mem_hskSubstrings (phrase : Str) (h : phrase ≠ []) :
    phrase ∈ hskSubstrings phrase := by
  have hlen : 0 < phrase.length := List.length_pos.mpr h
  unfold hskSubstrings
  rw [List.mem_dedup]
  apply List.mem_flatten.mpr
  refine ⟨(List.range (phrase.length - 0)).map fun dj => (phrase.drop 0).take (dj + 1),
    ?_, ?_⟩
  · exact List.mem_map.mpr ⟨0, List.mem_range.mpr hlen, rfl⟩
  · apply List.mem_map.mpr
    refine ⟨phrase.length - 1, List.mem_range.mpr (by omega), ?_⟩
    have hpl : phrase.length - 1 + 1 = phrase.length := by omega
    rw [List.drop_zero, hpl, List.take_length]

/-! ## Claim C3 (amended) -/

/-- C3 amended: over a well-formed table, HSK resolution of a NON-EMPTY
phrase terminates without raising; when neither the phrase nor any of its
contiguous substrings has a direct level, it returns Python's `None` (not
the string `"N/A"`).  (On the empty phrase it raises; see the
counterexample.) -/
theorem get_hsk_level_amended (t : HskTable) (phrase : Str)
    (hwf : wellFormedHsk t = true) (hne : phrase ≠ []) :
    ∃ v, get_hsk_level t phrase = .ok v ∧
      ((∀ sub ∈ hskSubstrings phrase, lookup_hsk_level t sub = .ok none) → v = none) := by
  obtain ⟨ld, hld, hkd⟩ := wf_lookup_hsk t hwf phrase
  unfold get_hsk_level
  simp only [hld]
  cases ld with
  | some lvl =>
    refine ⟨some lvl, rfl, fun hall => ?_⟩
    have hself := hall phrase (self_mem_hskSubstrings phrase hne)
    rw [hld] at hself
    simp at hself
  | none =>
    obtain ⟨lvls, hmapM, hF⟩ := mapMExceptTotal (lookup_hsk_level t) (hskSubstrings phrase)
      (fun s _ => (wf_lookup_hsk t hwf s).imp fun l hl => hl.1)
    have hkeys_total : ∀ l ∈ lvls, ∃ k, levelKey l = some k := by
      intro l hl
      obtain ⟨s, _, hfs⟩ := forall₂_mem_right hF l hl
      obtain ⟨l', hl', hk'⟩ := wf_lookup_hsk t hwf s
      rw [hfs] at hl'
      have hll : l' = l := (Except.ok.inj hl').symm
      subst hll
      exact Option.isSome_iff_exists.mp hk'
    obtain ⟨keys, hkeys, hFk⟩ := mapMOptionTotal levelKey lvls hkeys_total
    simp only [hmapM, hkeys]
    have hlvls_ne : lvls ≠ [] := by
      intro hnil
      have hlen := hF.length_eq
      rw [hnil] at hlen
      have hsubs : hskSubstrings phrase = [] :=
        List.length_eq_zero.mp (by simpa using hlen)
      have hself := self_mem_hskSubstrings phrase hne
      rw [hsubs] at hself
      exact List.not_mem_nil _ hself
    cases hz : lvls.zip keys with
    | nil =>
      exfalso
      have hklen := hFk.length_eq
      have hzl : (lvls.zip keys).length = lvls.length := by
        rw [List.length_zip, ← hklen, Nat.min_self]
      rw [hz] at hzl
      exact hlvls_ne (List.length_eq_zero.mp hzl.symm)
    | cons first rest =>
      refine ⟨maxByKey first rest, rfl, fun hall => ?_⟩
      have hlvls_none : ∀ l ∈ lvls, l = none := by
        intro l hl
        obtain ⟨s, hs, hfs⟩ := forall₂_mem_right hF l hl
        have hsn := hall s hs
        rw [hfs] at hsn
        exact Except.ok.inj hsn
      rcases hfb : foldBest first rest with ⟨a, b⟩
      have hmem := foldBest_mem rest first
      rw [← hz, hfb] at hmem
      have hain : a ∈ lvls := (List.of_mem_zip hmem).1
      show (foldBest first rest).1 = none
      rw [hfb]
      exact hlvls_none a hain

/-- C3 amended, witnessed on the phrase `大` over the table
`好 ↦ ["new-1"]`: resolution succeeds and returns `None`. -/
theorem get_hsk_level_amended_witness :
    ∃ v, get_hsk_level [("好".toList, ["new-1".toList])] "大".toList = .ok v ∧
      ((∀ sub ∈ hskSubstrings "大".toList,
          lookup_hsk_level [("好".toList, ["new-1".toList])] sub = .ok none) → v = none) :=
  get_hsk_level_amended [("好".toList, ["new-1".toList])] "大".toList
    (by decide) (by decide)

/-! ## Claim C8 -/

/-- Pairing version of `Forall₂`: every left element has a partner, and the
pair occurs in the zip. -/
theorem forall₂_zip_left {α β : Type} {R : α → β → Prop} :
    ∀ {l₁ : List α} {l₂ : List β}, List.Forall₂ R l₁ l₂ →
      ∀ a ∈ l₁, ∃ b, R a b ∧ (a, b) ∈ l₁.zip l₂ := by
  intro l₁ l₂ h
  induction h with
  | nil => intro a ha; cases ha
  | cons hr _ ih =>
    intro a ha
    rcases List.mem_cons.mp ha with ha | ha
    · subst ha
      exact ⟨_, hr, List.mem_cons_self _ _⟩
    · obtain ⟨b, hrb, hmem⟩ := ih a ha
      exact ⟨b, hrb, List.mem_cons_of_mem _ hmem⟩

/-- Every pair of the zip of `Forall₂`-related lists is itself related. -/
theorem forall₂_zip_pairs {α β : Type} {R : α → β → Prop} :
    ∀ {l₁ : List α} {l₂ : List β}, List.Forall₂ R l₁ l₂ →
      ∀ pr ∈ l₁.zip l₂, R pr.1 pr.2 := by
  intro l₁ l₂ h
  induction h with
  | nil => intro pr hpr; cases hpr
  | cons hr _ ih =>
    intro pr hpr
    rcases List.mem_cons.mp hpr with hpr | hpr
    · subst hpr; exact hr
    · exact ih pr hpr

theorem keyLe_refl (a : Int × Bool) : keyLe a a := Or.inr ⟨rfl, fun h => h⟩

theorem keyLe_trans {a b c : Int × Bool} (h1 : keyLe a b) (h2 : keyLe b c) :
    keyLe a c := by
  unfold keyLe at *
  rcases h1 with h1 | ⟨h1, h1b⟩ <;> rcases h2 with h2 | ⟨h2, h2b⟩
  · exact Or.inl (lt_trans h1 h2)
  · exact Or.inl (h2 ▸ h1)
  · exact Or.inl (h1 ▸ h2)
  · exact Or.inr ⟨h1.trans h2, fun h => h2b (h1b h)⟩

theorem keyLe_of_keyLt {a b : Int × Bool} (h : keyLt a b = true) : keyLe a b := by
  unfold keyLt at h
  unfold keyLe
  simp only [Bool.or_eq_true, Bool.and_eq_true, decide_eq_true_eq] at h
  rcases h with h | ⟨h1, _, h3⟩
  · exact Or.inl h
  · exact Or.inr ⟨h1, fun _ => h3⟩

theorem keyLe_of_not_keyLt {a b : Int × Bool} (h : keyLt a b = false) : keyLe b a := by
  by_cases h1 : a.1 < b.1
  · exfalso
    simp [keyLt, h1] at h
  · by_cases h2 : a.1 = b.1
    · refine Or.inr ⟨h2.symm, fun hb => ?_⟩
      by_cases ha : a.2 = true
      · exact ha
      · have ha' : a.2 = false := by revert ha; cases a.2 <;> simp
        simp [keyLt, h2, ha', hb] at h
    · exact Or.inl (by omega)

/-- The `max` fold's result has a key above every candidate's key. -/
theorem foldBest_above :
    ∀ (rest : List (Option Str × (Int × Bool))) (first x : Option Str × (Int × Bool)),
      x ∈ first :: rest → keyLe x.2 (foldBest first rest).2 := by
  intro rest
  induction rest with
  | nil =>
    intro first x hx
    rcases List.mem_cons.mp hx with hx | hx
    · subst hx; exact keyLe_refl _
    · cases hx
  | cons r rest ih =>
    intro first x hx
    show keyLe x.2 (foldBest (if keyLt first.2 r.2 then r else first) rest).2
    have h1 : keyLe first.2 (if keyLt first.2 r.2 then r else first).2 := by
      cases hlt : keyLt first.2 r.2
      · simp only [hlt, Bool.false_eq_true, if_false]
        exact keyLe_refl _
      · simp only [hlt, if_true]
        exact keyLe_of_keyLt hlt
    have h2 : keyLe r.2 (if keyLt first.2 r.2 then r else first).2 := by
      cases hlt : keyLt first.2 r.2
      · simp only [hlt, Bool.false_eq_true, if_false]
        exact keyLe_of_not_keyLt hlt
      · simp only [hlt, if_true]
        exact keyLe_refl _
    rcases List.mem_cons.mp hx with hx | hx
    · subst hx
      exact keyLe_trans h1 (ih _ _ (List.mem_cons_self _ _))
    rcases List.mem_cons.mp hx with hx | hx
    · subst hx
      exact keyLe_trans h2 (ih _ _ (List.mem_cons_self _ _))
    · exact ih _ x (List.mem_cons_of_mem _ hx)

/-- Any `phrase[i:j]` slice is one of the enumerated substrings. -/
theorem slice_mem_hskSubstrings (phrase : Str) (i j : Nat)
    (hij : i < j) (hj : j ≤ phrase.length) :
    (phrase.drop i).take (j - i) ∈ hskSubstrings phrase := by
  unfold hskSubstrings
  rw [List.mem_dedup]
  apply List.mem_flatten.mpr
  refine ⟨(List.range (phrase.length - i)).map fun dj => (phrase.drop i).take (dj + 1),
    List.mem_map.mpr ⟨i, List.mem_range.mpr (by omega), rfl⟩, ?_⟩
  apply List.mem_map.mpr
  refine ⟨j - i - 1, List.mem_range.mpr (by omega), ?_⟩
  congr 1
  omega

/-- C8: when the direct lookup of `phrase` is absent and the fallback
returns a level `v`, the key of `v` dominates, under the ordering "numeric
tier ascending, `+`-suffixed above bare, absence below every present
level", the direct level of every contiguous substring `phrase[i:j]`. -/
theorem hsk_fallback_ge_substrings (t : HskTable) (phrase : Str) (v : Option Str)
    (hdir : lookup_hsk_level t phrase = .ok none)
    (hres : get_hsk_level t phrase = .ok v)
    (i j : Nat) (hij : i < j) (hj : j ≤ phrase.length) :
    ∃ l kl kv, lookup_hsk_level t ((phrase.drop i).take (j - i)) = .ok l
      ∧ levelKey l = some kl ∧ levelKey v = some kv ∧ keyLe kl kv := by
  unfold get_hsk_level at hres
  simp only [hdir] at hres
  cases hmapM : (hskSubstrings phrase).mapM (lookup_hsk_level t) with
  | error u => simp only [hmapM] at hres; cases hres
  | ok lvls =>
    simp only [hmapM] at hres
    cases hkeys : lvls.mapM levelKey with
    | none => simp only [hkeys] at hres; cases hres
    | some keys =>
      simp only [hkeys] at hres
      cases hz : lvls.zip keys with
      | nil => simp only [hz] at hres; cases hres
      | cons first rest =>
        simp only [hz] at hres
        have hv : maxByKey first rest = v := Except.ok.inj hres
        have hF := mapMExceptForall (lookup_hsk_level t) _ _ hmapM
        have hFk := mapMOptionForall levelKey _ _ hkeys
        obtain ⟨l, hfl, hlz⟩ :=
          forall₂_zip_left hF _ (slice_mem_hskSubstrings phrase i j hij hj)
        have hl_mem : l ∈ lvls := (List.of_mem_zip hlz).2
        obtain ⟨kl, hkl, hklz⟩ := forall₂_zip_left hFk l hl_mem
        have hklz' : (l, kl) ∈ first :: rest := hz ▸ hklz
        have hkle : keyLe kl (foldBest first rest).2 := foldBest_above rest first (l, kl) hklz'
        have hvmem : foldBest first rest ∈ first :: rest := foldBest_mem rest first
        have hvz : foldBest first rest ∈ lvls.zip keys := hz ▸ hvmem
        have hkv : levelKey (foldBest first rest).1 = some (foldBest first rest).2 :=
          forall₂_zip_pairs hFk _ hvz
        refine ⟨l, kl, (foldBest first rest).2, hfl, hkl, ?_, hkle⟩
        rw [← hv]
        exact hkv

/-- C8 witnessed: over the table `好 ↦ ["new-1"]` the phrase `大好` has no
direct level; the fallback returns level `1`, dominating the direct level of
the substring `好` (slice `i=1, j=2`). -/
theorem hsk_fallback_ge_substrings_witness :
    ∃ l kl kv,
      lookup_hsk_level [("好".toList, ["new-1".toList])]
          (("大好".toList.drop 1).take (2 - 1)) = .ok l
      ∧ levelKey l = some kl
      ∧ levelKey (some "1".toList) = some kv
      ∧ keyLe kl kv :=
  hsk_fallback_ge_substrings [("好".toList, ["new-1".toList])] "大好".toList
    (some "1".toList) (by rfl) (by rfl) 1 2 (by decide) (by decide)

/-! ## Claim C4 -/

/-- The scan over `end_index ∈ [1, 0]` is empty. -/
theorem gpScan_zero (d : DictIndex) (phrase : Str) (h : phrase ≠ []) :
    gpScan d phrase h 0 = none := by
  rw [gpScan]

/-- One unfolding of the descending prefix scan. -/
theorem gpScan_succ (d : DictIndex) (phrase : Str) (h : phrase ≠ []) (j : Nat) :
    gpScan d phrase h (Nat.succ j) =
      match lookup_best d (phrase.take (j + 1)) with
      | some entry =>
        match get_pinyin d (phrase.drop (j + 1)) with
        | some r => some (entry.pinyin ++ ' ' :: r)
        | none => gpScan d phrase h j
      | none => gpScan d phrase h j := by
  rw [gpScan]

/-- The descending scan returns `some s` exactly when some `end_index`
`e ∈ [1, k]` succeeds with value `s` and every longer one in range fails:
the result goes through the longest workable prefix. -/
theorem gpScan_some_iff (d : DictIndex) (phrase : Str) (h : phrase ≠ []) :
    ∀ (k : Nat) (s : Str), gpScan d phrase h k = some s ↔
      ∃ e, 1 ≤ e ∧ e ≤ k ∧ TrialOk d phrase e s ∧
        ∀ e', e < e' → e' ≤ k → TrialFail d phrase e' := by
  intro k
  induction k with
  | zero =>
    intro s
    rw [gpScan_zero]
    constructor
    · intro hs; cases hs
    · rintro ⟨e, he1, he0, -, -⟩; omega
  | succ j ih =>
    intro s
    rw [gpScan_succ]
    cases hlb : lookup_best d (phrase.take (j + 1)) with
    | none =>
      constructor
      · intro hs
        obtain ⟨e, he1, hej, hok, hfail⟩ := (ih s).mp hs
        refine ⟨e, he1, by omega, hok, fun e' hlt hle => ?_⟩
        rcases Nat.lt_or_ge e' (j + 1) with hcase | hcase
        · exact hfail e' hlt (by omega)
        · have he' : e' = j + 1 := by omega
          subst he'
          intro entry hentry
          rw [hlb] at hentry
          cases hentry
      · rintro ⟨e, he1, hej, hok, hfail⟩
        apply (ih s).mpr
        have hne : e ≠ j + 1 := by
          intro hcase
          subst hcase
          obtain ⟨entry, r, hentry, -, -⟩ := hok
          rw [hlb] at hentry
          cases hentry
        exact ⟨e, he1, by omega, hok, fun e' hlt hle => hfail e' hlt (by omega)⟩
    | some entry =>
      cases hgp : get_pinyin d (phrase.drop (j + 1)) with
      | some r =>
        constructor
        · intro hs
          cases hs
          refine ⟨j + 1, by omega, le_rfl, ⟨entry, r, hlb, hgp, rfl⟩,
            fun e' hlt hle => ?_⟩
          omega
        · rintro ⟨e, he1, hej, hok, hfail⟩
          rcases Nat.lt_or_ge e (j + 1) with hcase | hcase
          · exfalso
            have hfail1 := hfail (j + 1) (by omega) le_rfl entry hlb
            rw [hgp] at hfail1
            cases hfail1
          · have he : e = j + 1 := by omega
            subst he
            obtain ⟨entry', r', hentry', hgp', hs_eq⟩ := hok
            rw [hlb] at hentry'
            cases hentry'
            rw [hgp] at hgp'
            cases hgp'
            rw [hs_eq]
      | none =>
        constructor
        · intro hs
          obtain ⟨e, he1, hej, hok, hfail⟩ := (ih s).mp hs
          refine ⟨e, he1, by omega, hok, fun e' hlt hle => ?_⟩
          rcases Nat.lt_or_ge e' (j + 1) with hcase | hcase
          · exact hfail e' hlt (by omega)
          · have he' : e' = j + 1 := by omega
            subst he'
            intro entry' hentry'
            rw [hlb] at hentry'
            cases hentry'
            exact hgp
        · rintro ⟨e, he1, hej, hok, hfail⟩
          apply (ih s).mpr
          have hne : e ≠ j + 1 := by
            intro hcase
            subst hcase
            obtain ⟨entry', r', hentry', hgp', -⟩ := hok
            rw [hlb] at hentry'
            cases hentry'
            rw [hgp] at hgp'
            cases hgp'
          exact ⟨e, he1, by omega, hok, fun e' hlt hle => hfail e' hlt (by omega)⟩

/-- C4 counterexample: with entries for `ab`, `a` and `bc` (and none for
`c` or `abc`), `get_pinyin "abc"` does NOT commit to the longest matching
prefix `ab` (whose remainder `c` is unresolvable): it backtracks to the
shorter prefix `a` and succeeds, whereas the claim's committed longest-match
strategy (`assemblePinyinSpeced`) reports absence. -/
theorem get_pinyin_counterexample :
    get_pinyin
        [("ab".toList, [mkE "ab".toList "pab".toList]),
         ("a".toList, [mkE "a".toList "pa".toList]),
         ("bc".toList, [mkE "bc".toList "pbc".toList])] "abc".toList
      = some "pa pbc ".toList
    ∧ assemblePinyinSpeced
        [("ab".toList, [mkE "ab".toList "pab".toList]),
         ("a".toList, [mkE "a".toList "pa".toList]),
         ("bc".toList, [mkE "bc".toList "pbc".toList])] "abc".toList
      = none := by
  constructor
  · simp [get_pinyin, gpScan, lookup_best, lookup, dictGet, mkE, List.take, List.drop]
  · simp [assemblePinyinSpeced, longestEntryPre, lookup_best, lookup, dictGet, mkE,
      List.take, List.drop]

/-- C4 amended: the empty phrase yields the empty pinyin; a non-empty
phrase resolves to `s` exactly when the LONGEST `end_index` whose prefix has
a dictionary entry AND whose remainder recursively resolves produces `s` —
on a remainder failure the loop backtracks to shorter prefixes instead of
committing. -/
theorem get_pinyin_amended (d : DictIndex) (phrase s : Str) (h : phrase ≠ []) :
    get_pinyin d [] = some [] ∧
    (get_pinyin d phrase = some s ↔
      ∃ e, 1 ≤ e ∧ e ≤ phrase.length ∧ TrialOk d phrase e s ∧
        ∀ e', e < e' → e' ≤ phrase.length → TrialFail d phrase e') := by
  constructor
  · rw [get_pinyin]
    rfl
  · have hun : get_pinyin d phrase = gpScan d phrase h phrase.length := by
      rw [get_pinyin]
      exact dif_neg h
    rw [hun]
    exact gpScan_some_iff d phrase h phrase.length s

/-- C4 amended, witnessed on the counterexample dictionary: `abc` resolves
through the prefix `a` (the longest workable one), and the characterization
is hit at `e = 1`. -/
theorem get_pinyin_amended_witness :
    get_pinyin
        [("ab".toList, [mkE "ab".toList "pab".toList]),
         ("a".toList, [mkE "a".toList "pa".toList]),
         ("bc".toList, [mkE "bc".toList "pbc".toList])] [] = some [] ∧
    (get_pinyin
        [("ab".toList, [mkE "ab".toList "pab".toList]),
         ("a".toList, [mkE "a".toList "pa".toList]),
         ("bc".toList, [mkE "bc".toList "pbc".toList])] "abc".toList
        = some "pa pbc ".toList ↔
      ∃ e, 1 ≤ e ∧ e ≤ "abc".toList.length ∧
        TrialOk
          [("ab".toList, [mkE "ab".toList "pab".toList]),
           ("a".toList, [mkE "a".toList "pa".toList]),
           ("bc".toList, [mkE "bc".toList "pbc".toList])] "abc".toList e "pa pbc ".toList ∧
        ∀ e', e < e' → e' ≤ "abc".toList.length →
          TrialFail
            [("ab".toList, [mkE "ab".toList "pab".toList]),
             ("a".toList, [mkE "a".toList "pa".toList]),
             ("bc".toList, [mkE "bc".toList "pbc".toList])] "abc".toList e') :=
  get_pinyin_amended _ "abc".toList "pa pbc ".toList (by decide)

/-! ## Claim C5 -/

/-- C5: a successful `get_pinyin` covers the ENTIRE phrase: the result
decomposes the whole phrase into non-empty dictionary-matched segments and
the returned pinyin is exactly the segments' pinyin, each followed by the
joining space; the absent result is the distinct `none`, never a partial
string. -/
theorem get_pinyin_covers_whole_phrase (d : DictIndex) (phrase s : Str)
    (hs : get_pinyin d phrase = some s) :
    ∃ segs : List (Str × CEntry),
      (segs.map Prod.fst).flatten = phrase ∧
      (∀ pr ∈ segs, pr.1 ≠ [] ∧ lookup_best d pr.1 = some pr.2) ∧
      (segs.map fun pr => pr.2.pinyin ++ [' ']).flatten = s := by
  have main : ∀ (n : Nat) (phrase s : Str), phrase.length ≤ n →
      get_pinyin d phrase = some s →
      ∃ segs : List (Str × CEntry),
        (segs.map Prod.fst).flatten = phrase ∧
        (∀ pr ∈ segs, pr.1 ≠ [] ∧ lookup_best d pr.1 = some pr.2) ∧
        (segs.map fun pr => pr.2.pinyin ++ [' ']).flatten = s := by
    intro n
    induction n with
    | zero =>
      intro phrase s hlen hsp
      have hnil : phrase = [] := List.length_eq_zero.mp (by omega)
      subst hnil
      rw [get_pinyin] at hsp
      simp only [dif_pos] at hsp
      cases hsp
      exact ⟨[], rfl, fun pr hpr => absurd hpr (List.not_mem_nil _), rfl⟩
    | succ n ih =>
      intro phrase s hlen hsp
      by_cases hnil : phrase = []
      · subst hnil
        rw [get_pinyin] at hsp
        simp only [dif_pos] at hsp
        cases hsp
        exact ⟨[], rfl, fun pr hpr => absurd hpr (List.not_mem_nil _), rfl⟩
      · have hun : get_pinyin d phrase = gpScan d phrase hnil phrase.length := by
          rw [get_pinyin]
          exact dif_neg hnil
        rw [hun] at hsp
        obtain ⟨e, he1, heL, ⟨entry, r, hlb, hgp, hs_eq⟩, -⟩ :=
          (gpScan_some_iff d phrase hnil phrase.length s).mp hsp
        have hdl : (phrase.drop e).length ≤ n := by
          simp only [List.length_drop]
          omega
        obtain ⟨segs, hflat, hprops, hpin⟩ := ih (phrase.drop e) r hdl hgp
        refine ⟨(phrase.take e, entry) :: segs, ?_, ?_, ?_⟩
        · simp only [List.map_cons, List.flatten_cons, hflat, List.take_append_drop]
        · intro pr hpr
          rcases List.mem_cons.mp hpr with hpr | hpr
          · subst hpr
            refine ⟨?_, hlb⟩
            simp only [ne_eq, List.take_eq_nil_iff]
            push_neg
            exact ⟨by omega, hnil⟩
          · exact hprops pr hpr
        · simp only [List.map_cons, List.flatten_cons, hpin, hs_eq,
            List.append_assoc, List.singleton_append]
  exact main phrase.length phrase s le_rfl hs

/-- C5 witnessed: `get_pinyin` on `abc` yields `pa pbc `, which decomposes
the whole input into the dictionary segments `a` and `bc`. -/
theorem get_pinyin_covers_whole_phrase_witness :
    ∃ segs : List (Str × CEntry),
      (segs.map Prod.fst).flatten = "abc".toList ∧
      (∀ pr ∈ segs, pr.1 ≠ [] ∧
        lookup_best
          [("ab".toList, [mkE "ab".toList "pab".toList]),
           ("a".toList, [mkE "a".toList "pa".toList]),
           ("bc".toList, [mkE "bc".toList "pbc".toList])] pr.1 = some pr.2) ∧
      (segs.map fun pr => pr.2.pinyin ++ [' ']).flatten = "pa pbc ".toList :=
  get_pinyin_covers_whole_phrase _ "abc".toList "pa pbc ".toList
    (by simp [get_pinyin, gpScan, lookup_best, lookup, dictGet, mkE, List.take, List.drop])

/-! ## Claim C6 -/

/-- C6 counterexample: `lookup` on a phrase absent from the index returns
Python `None`, not an empty list. -/
theorem lookup_absent_counterexample :
    load_dictionary ["你 你 [ni3] /you/".toList]
      = .ok [("你".toList,
          [{ text := "你".toList, traditional := "你".toList, simplified := "你".toList,
             pinyin := "nǐ".toList, pinyin_raw := "ni3".toList,
             definition := "you".toList }])]
    ∧ lookup [("你".toList,
          [{ text := "你".toList, traditional := "你".toList, simplified := "你".toList,
             pinyin := "nǐ".toList, pinyin_raw := "ni3".toList,
             definition := "you".toList }])] "我".toList = none
    ∧ (none : Option (List CEntry)) ≠ some [] := by
  refine ⟨rfl, rfl, ?_⟩
  simp

/-- Reading an appended index: the appended key's list grows by the entry,
every other key is untouched. -/
theorem dictGet_dictAppend (m : DictIndex) (k : Str) (e : CEntry) (p : Str) :
    dictGet (dictAppend m k e) p =
      if p = k then some ((dictGet m k).getD [] ++ [e]) else dictGet m p := by
  induction m with
  | nil =>
    by_cases hpk : p = k
    · subst hpk
      simp [dictAppend, dictGet]
    · have hkp : ¬(k = p) := fun hh => hpk hh.symm
      simp [dictAppend, dictGet, hpk, hkp]
  | cons pr rest ih =>
    obtain ⟨k', v'⟩ := pr
    by_cases hk' : k' = k
    · subst hk'
      by_cases hpk : p = k'
      · subst hpk
        simp [dictAppend, dictGet]
      · have hkp : ¬(k' = p) := fun hh => hpk hh.symm
        simp [dictAppend, dictGet, hpk, hkp]
    · by_cases hp' : k' = p
      · have hpk : ¬(p = k) := fun hh => hk' (hp'.trans hh)
        simp [dictAppend, dictGet, hk', hp', hpk]
      · simp [dictAppend, dictGet, hk', hp', ih]

/-- One line's effect on the index, keyed by its contribution. -/
theorem processLine_contrib (m m' : DictIndex) (raw : Str)
    (h : processLine m raw = .ok m') (p : Str) :
    dictGet m' p =
      if lineContrib p raw = [] then dictGet m p
      else some ((dictGet m p).getD [] ++ lineContrib p raw) := by
  unfold processLine at h
  unfold lineContrib
  by_cases hempty : pyStrip raw = []
  · simp only [hempty, if_pos rfl] at h ⊢
    cases h
    simp
  · rw [if_neg hempty] at h ⊢
    by_cases hcomment : (pyStrip raw).head? = some '#'
    · rw [if_pos hcomment] at h ⊢
      cases h
      simp
    · rw [if_neg hcomment] at h ⊢
      cases hparse : parse_line (pyStrip raw) with
      | none =>
        simp only [hparse] at h
        cases h
        simp
      | some q =>
        obtain ⟨T, S, P, D⟩ := q
        simp only [hparse] at h
        cases hentry : line_entry T S P D with
        | none =>
          simp only [hentry] at h
          cases h
        | some e =>
          simp only [hentry] at h ⊢
          cases h
          by_cases hTS : T = S
          · rw [if_pos hTS]
            simp only [dictGet_dictAppend]
            by_cases hpS : p = S
            · have hor : S = p ∨ T = p := Or.inl hpS.symm
              simp [hpS, hor]
            · have hnor : ¬(S = p ∨ T = p) := by
                rintro (hh | hh)
                · exact hpS hh.symm
                · exact hpS ((hTS.symm.trans hh).symm)
              simp [hpS, hnor]
          · rw [if_neg hTS]
            simp only [dictGet_dictAppend]
            by_cases hpT : p = T
            · simp [hpT, hTS]
            · by_cases hpS : p = S
              · have hor : S = p ∨ T = p := Or.inl hpS.symm
                have hST : ¬(S = T) := fun hh => hTS hh.symm
                simp [hpT, hpS, hor, hST]
              · have hnor : ¬(S = p ∨ T = p) := by
                  rintro (hh | hh)
                  · exact hpS hh.symm
                  · exact hpT hh.symm
                simp [hpT, hpS, hnor]

/-- The contributions of a line list split head/tail. -/
theorem fileOrderEntries_cons (raw : Str) (rest : List Str) (p : Str) :
    fileOrderEntries (raw :: rest) p = lineContrib p raw ++ fileOrderEntries rest p := by
  simp [fileOrderEntries]

/-- Folding the loader accumulates, per key, exactly the file-order
contributions. -/
theorem load_agg :
    ∀ (lines : List Str) (m idx : DictIndex),
      lines.foldlM processLine m = .ok idx → ∀ p,
        dictGet idx p =
          if fileOrderEntries lines p = [] then dictGet m p
          else some ((dictGet m p).getD [] ++ fileOrderEntries lines p) := by
  intro lines
  induction lines with
  | nil =>
    intro m idx h p
    rw [List.foldlM_nil] at h
    cases h
    simp [fileOrderEntries]
  | cons raw rest ih =>
    intro m idx h p
    rw [List.foldlM_cons] at h
    cases hpl : processLine m raw with
    | error u => rw [hpl] at h; cases h
    | ok m1 =>
      rw [hpl, exceptOkBind] at h
      have hstep := processLine_contrib m m1 raw hpl p
      have htail := ih m1 idx h p
      rw [fileOrderEntries_cons]
      by_cases hc : lineContrib p raw = []
      · rw [if_pos hc] at hstep
        by_cases hfe : fileOrderEntries rest p = []
        · rw [if_pos hfe] at htail
          simp [hc, hfe, htail, hstep]
        · rw [if_neg hfe] at htail
          rw [htail, hstep]
          simp [hc, hfe]
      · rw [if_neg hc] at hstep
        by_cases hfe : fileOrderEntries rest p = []
        · rw [if_pos hfe] at htail
          rw [htail, hstep]
          have hne : ¬(lineContrib p raw ++ fileOrderEntries rest p = []) := by
            simp [hc, hfe]
          rw [if_neg hne, hfe]
          simp
        · rw [if_neg hfe] at htail
          rw [htail, hstep]
          have hne : ¬(lineContrib p raw ++ fileOrderEntries rest p = []) := by
            simp [hc]
          rw [if_neg hne]
          simp

/-- C6 amended: a phrase absent from the loaded index looks up to `None`
(not an empty list); a present phrase looks up to the ordered, non-empty
list of its entries in file order. -/
theorem lookup_file_order (lines : List Str) (idx : DictIndex)
    (hload : load_dictionary lines = .ok idx) (p : Str) :
    lookup idx p =
      (if fileOrderEntries lines p = [] then none else some (fileOrderEntries lines p))
    ∧ ∀ l, lookup idx p = some l → l ≠ [] ∧ l = fileOrderEntries lines p := by
  have h := load_agg lines [] idx hload p
  have hbase : dictGet ([] : DictIndex) p = none := rfl
  rw [hbase] at h
  have hmain : lookup idx p =
      (if fileOrderEntries lines p = [] then none else some (fileOrderEntries lines p)) := by
    unfold lookup
    rw [h]
    by_cases hfe : fileOrderEntries lines p = []
    · rw [if_pos hfe, if_pos hfe]
    · rw [if_neg hfe, if_neg hfe]
      simp
  refine ⟨hmain, fun l hl => ?_⟩
  rw [hmain] at hl
  by_cases hfe : fileOrderEntries lines p = []
  · rw [if_pos hfe] at hl
    cases hl
  · rw [if_neg hfe] at hl
    cases hl
    exact ⟨hfe, rfl⟩

/-- C6 amended, witnessed on the one-line file `門 门 [men2] /gate/` and the
phrase `门`. -/
theorem lookup_file_order_witness :
    ∃ idx, load_dictionary ["門 门 [men2] /gate/".toList] = .ok idx ∧
      (lookup idx "门".toList =
        (if fileOrderEntries ["門 门 [men2] /gate/".toList] "门".toList = [] then none
         else some (fileOrderEntries ["門 门 [men2] /gate/".toList] "门".toList))
      ∧ ∀ l, lookup idx "门".toList = some l →
          l ≠ [] ∧ l = fileOrderEntries ["門 门 [men2] /gate/".toList] "门".toList) :=
  ⟨_, rfl, lookup_file_order ["門 门 [men2] /gate/".toList] _ rfl "门".toList⟩

/-! ## Claim C7 -/

/-- C7: a line parsed to groups `(T, S, P, D)` (and rendering without
raising) is indexed under its simplified form and, when different, its
traditional form, both mapping to the single entry whose fields are exactly
the parsed ones; when `T = S` the phrase is indexed once. -/
theorem parse_line_lookup_roundtrip (line T S P D : Str) (e : CEntry)
    (hparse : parse_line line = some (T, S, P, D))
    (hentry : line_entry T S P D = some e)
    (hstrip : pyStrip line = line) (hcomment : line.head? ≠ some '#') :
    load_dictionary [line] = .ok (if T = S then [(S, [e])] else [(S, [e]), (T, [e])])
    ∧ lookup (if T = S then [(S, [e])] else [(S, [e]), (T, [e])]) S = some [e]
    ∧ lookup (if T = S then [(S, [e])] else [(S, [e]), (T, [e])]) T = some [e]
    ∧ e.text = S ∧ e.traditional = T ∧ e.simplified = S ∧ e.pinyin_raw = P
    ∧ format_pinyin P = some e.pinyin
    ∧ format_definition_pinyin D = some e.definition := by
  have hne : line ≠ [] := by
    intro hnil
    rw [hnil] at hparse
    cases hparse
  have hfields : e.text = S ∧ e.traditional = T ∧ e.simplified = S ∧ e.pinyin_raw = P
      ∧ format_pinyin P = some e.pinyin
      ∧ format_definition_pinyin D = some e.definition := by
    unfold line_entry at hentry
    cases hfp : format_pinyin P with
    | none => rw [hfp] at hentry; cases hentry
    | some fp =>
      rw [hfp] at hentry
      cases hfd : format_definition_pinyin D with
      | none => rw [hfd] at hentry; cases hentry
      | some fd =>
        rw [hfd] at hentry
        cases hentry
        exact ⟨rfl, rfl, rfl, rfl, rfl, rfl⟩
  have hload : load_dictionary [line]
      = .ok (if T = S then [(S, [e])] else [(S, [e]), (T, [e])]) := by
    unfold load_dictionary
    rw [List.foldlM_cons]
    have hpl : processLine [] line
        = .ok (if T = S then [(S, [e])] else [(S, [e]), (T, [e])]) := by
      unfold processLine
      rw [hstrip, if_neg hne, if_neg hcomment]
      simp only [hparse, hentry]
      by_cases hTS : T = S
      · subst hTS
        rw [if_pos rfl, if_pos rfl]
        rfl
      · rw [if_neg hTS, if_neg hTS]
        have hST : ¬(S = T) := fun hh => hTS hh.symm
        simp [dictAppend, hST]
    rw [hpl, exceptOkBind, List.foldlM_nil]
    rfl
  refine ⟨hload, ?_, ?_, hfields.1, hfields.2.1, hfields.2.2.1, hfields.2.2.2.1,
    hfields.2.2.2.2.1, hfields.2.2.2.2.2⟩
  · by_cases hTS : T = S
    · rw [if_pos hTS]
      simp [lookup, dictGet]
    · rw [if_neg hTS]
      simp [lookup, dictGet]
  · by_cases hTS : T = S
    · rw [if_pos hTS, hTS]
      simp [lookup, dictGet]
    · rw [if_neg hTS]
      have hST : ¬(S = T) := fun hh => hTS hh.symm
      simp [lookup, dictGet, hST]

/-- C7 witnessed on the line `門 门 [men2] /gate/` (traditional and
simplified forms differ, so both are indexed). -/
theorem parse_line_lookup_roundtrip_witness :
    load_dictionary ["門 门 [men2] /gate/".toList]
      = .ok (if "門".toList = "门".toList
             then [("门".toList, [{ text := "门".toList, traditional := "門".toList,
                                   simplified := "门".toList, pinyin := "mén".toList,
                                   pinyin_raw := "men2".toList, definition := "gate".toList }])]
             else [("门".toList, [{ text := "门".toList, traditional := "門".toList,
                                   simplified := "门".toList, pinyin := "mén".toList,
                                   pinyin_raw := "men2".toList, definition := "gate".toList }]),
                   ("門".toList, [{ text := "门".toList, traditional := "門".toList,
                                   simplified := "门".toList, pinyin := "mén".toList,
                                   pinyin_raw := "men2".toList, definition := "gate".toList }])])
    ∧ lookup (if "門".toList = "门".toList
             then [("门".toList, [{ text := "门".toList, traditional := "門".toList,
                                   simplified := "门".toList, pinyin := "mén".toList,
                                   pinyin_raw := "men2".toList, definition := "gate".toList }])]
             else [("门".toList, [{ text := "门".toList, traditional := "門".toList,
                                   simplified := "门".toList, pinyin := "mén".toList,
                                   pinyin_raw := "men2".toList, definition := "gate".toList }]),
                   ("門".toList, [{ text := "门".toList, traditional := "門".toList,
                                   simplified := "门".toList, pinyin := "mén".toList,
                                   pinyin_raw := "men2".toList, definition := "gate".toList }])])
        "门".toList
      = some [{ text := "门".toList, traditional := "門".toList,
                simplified := "门".toList, pinyin := "mén".toList,
                pinyin_raw := "men2".toList, definition := "gate".toList }]
    ∧ lookup (if "門".toList = "门".toList
             then [("门".toList, [{ text := "门".toList, traditional := "門".toList,
                                   simplified := "门".toList, pinyin := "mén".toList,
                                   pinyin_raw := "men2".toList, definition := "gate".toList }])]
             else [("门".toList, [{ text := "门".toList, traditional := "門".toList,
                                   simplified := "门".toList, pinyin := "mén".toList,
                                   pinyin_raw := "men2".toList, definition := "gate".toList }]),
                   ("門".toList, [{ text := "门".toList, traditional := "門".toList,
                                   simplified := "门".toList, pinyin := "mén".toList,
                                   pinyin_raw := "men2".toList, definition := "gate".toList }])])
        "門".toList
      = some [{ text := "门".toList, traditional := "門".toList,
                simplified := "门".toList, pinyin := "mén".toList,
                pinyin_raw := "men2".toList, definition := "gate".toList }]
    ∧ ({ text := "门".toList, traditional := "門".toList, simplified := "门".toList,
         pinyin := "mén".toList, pinyin_raw := "men2".toList,
         definition := "gate".toList } : CEntry).text = "门".toList
    ∧ ({ text := "门".toList, traditional := "門".toList, simplified := "门".toList,
         pinyin := "mén".toList, pinyin_raw := "men2".toList,
         definition := "gate".toList } : CEntry).traditional = "門".toList
    ∧ ({ text := "门".toList, traditional := "門".toList, simplified := "门".toList,
         pinyin := "mén".toList, pinyin_raw := "men2".toList,
         definition := "gate".toList } : CEntry).simplified = "门".toList
    ∧ ({ text := "门".toList, traditional := "門".toList, simplified := "门".toList,
         pinyin := "mén".toList, pinyin_raw := "men2".toList,
         definition := "gate".toList } : CEntry).pinyin_raw = "men2".toList
    ∧ format_pinyin "men2".toList
      = some ({ text := "门".toList, traditional := "門".toList, simplified := "门".toList,
                pinyin := "mén".toList, pinyin_raw := "men2".toList,
                definition := "gate".toList } : CEntry).pinyin
    ∧ format_definition_pinyin "gate".toList
      = some ({ text := "门".toList, traditional := "門".toList, simplified := "门".toList,
                pinyin := "mén".toList, pinyin_raw := "men2".toList,
                definition := "gate".toList } : CEntry).definition :=
  parse_line_lookup_roundtrip "門 门 [men2] /gate/".toList
    "門".toList "门".toList "men2".toList "gate".toList
    { text := "门".toList, traditional := "門".toList, simplified := "门".toList,
      pinyin := "mén".toList, pinyin_raw := "men2".toList, definition := "gate".toList }
    (by decide) (by decide) (by decide) (by decide)

/-! ## Claim C9 -/

/-- C9 amended: a syllable containing a tone digit but none of the vowels
`a, e, o, i, u, ü` is returned with all digits stripped and no tone mark
added (not unchanged). -/
theorem add_tone_no_vowel (s : Str)
    (hd : s.any (·.isDigit) = true)
    (hv : ∀ v ∈ (['a', 'e', 'o', 'i', 'u', 'ü'] : List Char), v ∉ s) :
    add_tone s = some (s.filter fun c => !c.isDigit) := by
  unfold add_tone
  obtain ⟨x, hx, hpx⟩ := List.any_eq_true.mp hd
  cases hfs : s.find? (·.isDigit) with
  | none =>
    exact absurd hpx (List.find?_eq_none.mp hfs x hx)
  | some d =>
    have hfv : firstVowel (s.filter fun c => !c.isDigit) = none := by
      unfold firstVowel
      rw [List.findSome?_eq_none_iff]
      intro v hvmem
      have hidx : (s.filter fun c => !c.isDigit).findIdx? (· = v) = none := by
        rw [List.findIdx?_eq_none_iff]
        intro y hy
        have hys : y ∈ s := (List.mem_filter.mp hy).1
        have hyv : ¬(y = v) := fun hyv => hv v hvmem (hyv ▸ hys)
        simp [hyv]
      rw [hidx]
      rfl
    simp [hfv]

/-- C9 amended, witnessed on the syllable `hm3`. -/
theorem add_tone_no_vowel_witness :
    add_tone "hm3".toList = some ("hm3".toList.filter fun c => !c.isDigit) :=
  add_tone_no_vowel "hm3".toList (by decide) (by decide)

/-- C9 counterexample: on the vowel-less syllable `m2`, `add_tone` returns
`m` — the tone digit is stripped — not the unchanged syllable `m2` the
claim states. -/
theorem add_tone_counterexample :
    add_tone "m2".toList = some "m".toList ∧ "m".toList ≠ "m2".toList := by
  exact ⟨by rfl, by simp⟩
